import Mathlib

/-!
Verification of the relationship-inference engine of schema-graph-builder
(`src/inference/relationship_inference.py`).

The engine is a pure function from a schema description (tables, columns,
primary-key flags) to a per-table relationship record (primary key plus a
list of inferred foreign-key candidates with confidence scores).  The
Python module is embedded shallowly below: dictionaries become insertion-
ordered association lists, strings keep `String` at the boundary with the
character-level operations spelled out so that everything reduces inside
the kernel, floats become exact rationals (the module only ever produces
the literals 1.0, 0.95, 0.9, 0.7, 0.5 and performs no arithmetic on them).
-/

namespace SchemaGraph

/-! Section: Character/string primitives (Python `str` operations, ASCII case map) -/

/-- Python `str.lower` on a single character (ASCII range, which is the only
range exercised by identifiers in this code base). -/
def lowerChar (c : Char) : Char :=
  if 65 ≤ c.toNat ∧ c.toNat ≤ 90 then Char.ofNat (c.toNat + 32) else c

/-- Python `s.lower()`. -/
def strToLower (s : String) : String := ⟨s.data.map lowerChar⟩

/-- Suffix test on reversed character lists. -/
def revPref : List Char → List Char → Bool
  | [], _ => true
  | _ :: _, [] => false
  | a :: as, b :: bs => if a = b then revPref as bs else false

/-- Python `s.endswith(suffx)`. -/
def strEndsWith (s suffx : String) : Bool :=
  revPref suffx.data.reverse s.data.reverse

/-- Python `s[:-n]` for `n > 0`: drop the last `n` characters. -/
def strDropRight (s : String) (n : Nat) : String :=
  ⟨s.data.take (s.data.length - n)⟩

/-- Python `c in s` for a single character `c`. -/
def strHasChar (s : String) (c : Char) : Bool :=
  s.data.any (fun d => d = c)

/-- Helper for `strSplitChar`: accumulate the current chunk (reversed). -/
def splitCharAux (sep : Char) : List Char → List Char → List String
  | [], acc => [⟨acc.reverse⟩]
  | c :: rest, acc =>
    if c = sep then ⟨acc.reverse⟩ :: splitCharAux sep rest []
    else splitCharAux sep rest (c :: acc)

/-- Python `s.split(sep)` for a one-character separator. -/
def strSplitChar (s : String) (sep : Char) : List String :=
  splitCharAux sep s.data []

/-- Python `''.join(parts)`. -/
def strJoin (parts : List String) : String :=
  ⟨(parts.map String.data).flatten⟩

/-- Prefix test on character lists (for the substring test). -/
def listPref : List Char → List Char → Bool
  | [], _ => true
  | _ :: _, [] => false
  | a :: as, b :: bs => if a = b then listPref as bs else false

/-- Occurrence of `sub` as a contiguous run inside `l`. -/
def listSub (sub : List Char) : List Char → Bool
  | [] => listPref sub []
  | l@(_ :: rest) => if listPref sub l then true else listSub sub rest

/-- Python `sub in s` (substring containment). -/
def strSubstrOf (sub s : String) : Bool := listSub sub.data s.data

/-- Python `x in l` for a list of strings. -/
def memStr (s : String) : List String → Bool
  | [] => false
  | t :: rest => if s = t then true else memStr s rest

/-- Deduplication helper carrying the set of strings already emitted. -/
def dedupStrAux : List String → List String → List String
  | _, [] => []
  | seen, s :: rest =>
    if memStr s seen then dedupStrAux seen rest
    else s :: dedupStrAux (s :: seen) rest

/-- Python `list(set(l))` for string lists, up to element order: duplicates
removed, first occurrences kept. -/
def dedupStr (l : List String) : List String := dedupStrAux [] l

/-! Section: Data model (§3 of the spec, fields as read by the Python module) -/

/-- A column entry: `{'name': ..., 'primary_key': ...}` (the `type` and
`nullable` fields are never read by the inference module). -/
structure Column where
  name : String
  primary_key : Bool
deriving DecidableEq

/-- A table entry: `{'name': ..., 'columns': [...]}`. -/
structure Table where
  name : String
  columns : List Column
deriving DecidableEq

/-- The input dictionary.  `tables? = none` models a schema dictionary with
no `tables` key at all (the code reads it with `schema.get('tables', [])`). -/
structure SchemaDict where
  tables? : Option (List Table)
deriving DecidableEq

/-- An output foreign-key candidate. -/
structure ForeignKey where
  column : String
  references : String
  confidence : ℚ
deriving DecidableEq

/-- An output per-table relationship record. -/
structure Relationship where
  primary_key : Option String
  foreign_keys : List ForeignKey
deriving DecidableEq

/-! Section: Python `dict` model: insertion-ordered association lists.
`dictInsert` is `d[k] = v` (replace in place or append at the end),
`dictFind` is `d.get(k)`; iteration over `d.items()` is list order. -/

def dictInsert {α : Type} (k : String) (v : α) :
    List (String × α) → List (String × α)
  | [] => [(k, v)]
  | (k₀, v₀) :: rest =>
    if k₀ = k then (k, v) :: rest else (k₀, v₀) :: dictInsert k v rest

def dictFind {α : Type} : List (String × α) → String → Option α
  | [], _ => none
  | (k₀, v₀) :: rest, k => if k₀ = k then some v₀ else dictFind rest k

/-! Section: The inference module, function by function -/

/-- Embeds `_find_primary_key` (inner loop over `table['columns']`): the name of
the first column flagged `primary_key`, else `None`. -/
def findPrimaryKeyCols : List Column → Option String
  | [] => none
  | c :: rest => if c.primary_key then some c.name else findPrimaryKeyCols rest

/-- Embeds `_find_primary_key(table)`. -/
def find_primary_key (t : Table) : Option String :=
  findPrimaryKeyCols t.columns

/-- Embeds the `for suffix in ['_id', 'id']` loop of `_extract_base_name`. -/
def stripSuffixes : List String → String → String
  | [], name => name
  | suffx :: rest, name =>
    if strEndsWith name suffx then strDropRight name suffx.length
    else stripSuffixes rest name

/-- Embeds `_extract_base_name(name)`: remove an `_id` or `id` suffix (in that
order); no other normalization. -/
def extract_base_name (name : String) : String :=
  stripSuffixes ["_id", "id"] name

/-- Embeds `_get_table_name_variants(table_name)`: the listed variants, then
`list(set(variants))`. -/
def get_table_name_variants (table_name : String) : List String :=
  let variants := [table_name]
  let clean_name := table_name
  let variants :=
    if strHasChar clean_name '_' then
      let parts := strSplitChar clean_name '_'
      (variants ++ parts) ++ [strJoin parts]
    else variants
  let variants :=
    if strEndsWith table_name "s" ∧ 1 < table_name.length then
      variants ++ [strDropRight table_name 1]
    else variants
  let variants :=
    if !strEndsWith table_name "s" then
      variants ++ [table_name ++ "s"]
    else variants
  dedupStr variants

/-- Embeds `_is_foreign_key_match(column_name, ref_pk, ref_table_name)` (the
duplicated exact-equality test of the source is kept). -/
def is_foreign_key_match (column_name ref_pk ref_table_name : String) : Bool :=
  let column_lower := strToLower column_name
  let ref_pk_lower := strToLower ref_pk
  let ref_table_lower := strToLower ref_table_name
  if column_lower = ref_pk_lower then true
  else if column_lower = ref_pk_lower then true
  else
    let column_base := extract_base_name column_lower
    let ref_base := extract_base_name ref_pk_lower
    if column_base ≠ "" ∧ ref_base ≠ "" ∧ column_base = ref_base then true
    else if column_base ≠ "" ∧ memStr column_base (get_table_name_variants ref_table_lower) then
      true
    else false

/-- Embeds `_calculate_confidence(column_name, ref_pk, ref_table_name)`. -/
def calculate_confidence (column_name ref_pk ref_table_name : String) : ℚ :=
  let column_lower := strToLower column_name
  let ref_pk_lower := strToLower ref_pk
  let ref_table_lower := strToLower ref_table_name
  if column_lower = ref_pk_lower then 1.0
  else
    let column_base := extract_base_name column_lower
    let ref_base := extract_base_name ref_pk_lower
    if column_base = ref_base ∧ column_base ≠ "" then 0.95
    else if column_base ≠ "" ∧ memStr column_base (get_table_name_variants ref_table_lower) then
      0.9
    else if column_base ≠ "" ∧ ref_base ≠ "" ∧
        (strSubstrOf column_base ref_base ∨ strSubstrOf ref_base column_base) then
      0.7
    else 0.5

/-- The `for ref_table_name, ref_pk in table_primary_keys.items()` loop of
`infer_relationships` for one column: skip the table itself, skip falsy
(`None` or empty) primary keys, accept the first match and stop (`break`). -/
def matchColumn (table_name column_name : String) :
    List (String × Option String) → Option ForeignKey
  | [] => none
  | (ref_table_name, ref_pk) :: rest =>
    if ref_table_name = table_name then matchColumn table_name column_name rest
    else
      match ref_pk with
      | none => matchColumn table_name column_name rest
      | some pk =>
        if pk ≠ "" ∧ is_foreign_key_match column_name pk ref_table_name then
          some ⟨column_name, ref_table_name ++ "." ++ pk,
                calculate_confidence column_name pk ref_table_name⟩
        else matchColumn table_name column_name rest

/-- The `for column in table['columns']` loop of `infer_relationships`:
primary-key columns are skipped, every other column contributes the
foreign key accepted for it, if any. -/
def tableForeignKeys (pks : List (String × Option String)) (table_name : String) :
    List Column → List ForeignKey
  | [] => []
  | c :: rest =>
    if c.primary_key then tableForeignKeys pks table_name rest
    else
      match matchColumn table_name c.name pks with
      | some fk => fk :: tableForeignKeys pks table_name rest
      | none => tableForeignKeys pks table_name rest

/-- The relationship record stored for one table: `primary_key` read back
out of the lookup dictionary with `.get`, foreign keys from the column
loop. -/
def mkRecord (pks : List (String × Option String)) (t : Table) : Relationship :=
  ⟨(dictFind pks t.name).getD none, tableForeignKeys pks t.name t.columns⟩

/-- The `table_primary_keys` lookup dictionary of `infer_relationships`. -/
def tablePrimaryKeys (tables : List Table) : List (String × Option String) :=
  tables.foldl (fun d t => dictInsert t.name (find_primary_key t) d) []

/-- Body of `infer_relationships` after `tables = schema.get('tables', [])`. -/
def infer_tables (tables : List Table) : List (String × Relationship) :=
  let pks := tablePrimaryKeys tables
  tables.foldl (fun rel t => dictInsert t.name (mkRecord pks t) rel) []

/-- Embeds `infer_relationships(schema)`. -/
def infer_relationships (schema : SchemaDict) : List (String × Relationship) :=
  infer_tables (schema.tables?.getD [])

/-! Section: Specification-side definitions

These follow the words of the natural-language specification (and of the
claims under test) rather than the code; the theorems below compare the two. -/

/-- The matcher contract as the specification words it for one candidate
table `r`: `r` is distinct from the owning table, has a non-null primary
key, and `is_match` holds.  (This is the literal reading, with no condition
on the primary-key name being non-empty.) -/
def claim_candidate (table_name column_name : String) (r : Table) : Bool :=
  if r.name = table_name then false
  else
    match find_primary_key r with
    | none => false
    | some pk => is_foreign_key_match column_name pk r.name

/-- The candidate test the code actually applies: as `claim_candidate`, but
a primary key whose name is the empty string is also rejected (Python
truthiness of `ref_pk`). -/
def candidate_match (table_name column_name : String) (r : Table) : Bool :=
  if r.name = table_name then false
  else
    match find_primary_key r with
    | none => false
    | some pk => if pk = "" then false else is_foreign_key_match column_name pk r.name

/-- The foreign-key candidate recorded for a column once reference table
`r` is accepted (the `none` branch is never reached for an accepted
candidate, which always has a primary key). -/
def fkOf (column_name : String) (r : Table) : ForeignKey :=
  match find_primary_key r with
  | some pk => ⟨column_name, r.name ++ "." ++ pk, calculate_confidence column_name pk r.name⟩
  | none => ⟨column_name, r.name ++ ".", 0⟩

/-- Defines `extract_base_name` as the claim words it: lowercase first, then strip
an `_id` or `id` suffix, in that order. -/
def extract_base_name_claim (name : String) : String :=
  let n := strToLower name
  if strEndsWith n "_id" then strDropRight n 3
  else if strEndsWith n "id" then strDropRight n 2
  else n

/-- Defines `table_name_variants` as the claim words it: built from the lowercased
table name. -/
def table_name_variants_claim (table_name : String) : List String :=
  let n := strToLower table_name
  dedupStr
    ([n]
      ++ (if strHasChar n '_' then strSplitChar n '_' ++ [strJoin (strSplitChar n '_')] else [])
      ++ (if strEndsWith n "s" ∧ 1 < n.length then [strDropRight n 1] else [])
      ++ (if !strEndsWith n "s" then [n ++ "s"] else []))

/-! Section: Concrete schemas used by the scenarios, witnesses and counterexamples -/

/-- Scenario A: `customers(customer_id PK, name)`. -/
def customersA : Table := ⟨"customers", [⟨"customer_id", true⟩, ⟨"name", false⟩]⟩

/-- Scenario A: `orders(order_id PK, customer_id, total)`. -/
def ordersA : Table := ⟨"orders", [⟨"order_id", true⟩, ⟨"customer_id", false⟩, ⟨"total", false⟩]⟩

/-- Scenario A table list. -/
def tablesA : List Table := [customersA, ordersA]

/-- Scenario C: `users(id PK, name)`. -/
def usersC : Table := ⟨"users", [⟨"id", true⟩, ⟨"name", false⟩]⟩

/-- Scenario C: `orders(order_id PK, user_id, total)`. -/
def ordersC : Table := ⟨"orders", [⟨"order_id", true⟩, ⟨"user_id", false⟩, ⟨"total", false⟩]⟩

/-- Scenario C table list. -/
def tablesC : List Table := [usersC, ordersC]

/-- A table whose primary-key column is named by the empty string. -/
def usersE : Table := ⟨"users", [⟨"", true⟩]⟩

/-- A table with a column that name-matches `usersE` per the matcher. -/
def ordersE : Table := ⟨"orders", [⟨"order_id", true⟩, ⟨"user_id", false⟩]⟩

/-- Table list exercising the empty-named primary key. -/
def tablesE : List Table := [usersE, ordersE]

/-- A referenced table `users(id PK)`. -/
def usersN : Table := ⟨"users", [⟨"id", true⟩]⟩

/-- A table with no primary-key column but a matching foreign-key column. -/
def logsN : Table := ⟨"logs", [⟨"user_id", false⟩]⟩

/-- Table list with a primary-key-less table that still gets a foreign key. -/
def tablesN : List Table := [usersN, logsN]

/-! Section: Helper lemmas: string membership and deduplication -/

theorem memStr_iff (s : String) : ∀ l : List String, memStr s l = true ↔ s ∈ l := by
  intro l
  induction l with
  | nil => simp [memStr]
  | cons t rest ih =>
    by_cases h : s = t
    · subst h
      simp [memStr]
    · simp [memStr, h, ih]

theorem mem_dedupStrAux (s : String) :
    ∀ (l seen : List String), s ∈ dedupStrAux seen l ↔ (s ∈ l ∧ memStr s seen = false) := by
  intro l
  induction l with
  | nil =>
    intro seen
    simp [dedupStrAux]
  | cons t rest ih =>
    intro seen
    by_cases hst : s = t <;> by_cases hts : memStr t seen = true <;>
      simp_all [dedupStrAux, memStr]

theorem mem_dedupStr (s : String) (l : List String) : s ∈ dedupStr l ↔ s ∈ l := by
  rw [dedupStr, mem_dedupStrAux]
  simp [memStr]

theorem dedupStrAux_nodup : ∀ (l seen : List String), (dedupStrAux seen l).Nodup := by
  intro l
  induction l with
  | nil =>
    intro seen
    simp [dedupStrAux]
  | cons t rest ih =>
    intro seen
    by_cases hts : memStr t seen = true
    · simpa [dedupStrAux, hts] using ih seen
    · have h1 : t ∉ dedupStrAux (t :: seen) rest := by
        rw [mem_dedupStrAux]
        rintro ⟨-, hmem⟩
        simp [memStr] at hmem
      simpa [dedupStrAux, hts, List.nodup_cons, h1] using ih (t :: seen)

theorem dedupStr_nodup (l : List String) : (dedupStr l).Nodup :=
  dedupStrAux_nodup l []

/-! Section: Helper lemmas: the dictionary model -/

theorem mem_dictInsert {α : Type} (k : String) (v : α) :
    ∀ (d : List (String × α)) (p : String × α), p ∈ dictInsert k v d → p = (k, v) ∨ p ∈ d := by
  intro d
  induction d with
  | nil =>
    intro p hp
    simp only [dictInsert] at hp
    rcases List.mem_cons.mp hp with h | h
    · exact Or.inl h
    · cases h
  | cons q rest ih =>
    intro p hp
    obtain ⟨k₀, v₀⟩ := q
    simp only [dictInsert] at hp
    by_cases h : k₀ = k
    · rw [if_pos h] at hp
      rcases List.mem_cons.mp hp with h1 | h1
      · exact Or.inl h1
      · exact Or.inr (List.mem_cons_of_mem _ h1)
    · rw [if_neg h] at hp
      rcases List.mem_cons.mp hp with h1 | h1
      · exact Or.inr (by rw [h1]; exact List.mem_cons_self _ _)
      · rcases ih p h1 with h2 | h2
        · exact Or.inl h2
        · exact Or.inr (List.mem_cons_of_mem _ h2)

theorem dictInsert_fresh {α : Type} (k : String) (v : α) :
    ∀ d : List (String × α), (∀ p ∈ d, p.1 ≠ k) → dictInsert k v d = d ++ [(k, v)] := by
  intro d
  induction d with
  | nil =>
    intro _
    rfl
  | cons p rest ih =>
    intro h
    obtain ⟨k₀, v₀⟩ := p
    have hk : k₀ ≠ k := h (k₀, v₀) (List.mem_cons_self _ _)
    simp only [dictInsert, if_neg hk, List.cons_append]
    rw [ih fun q hq => h q (List.mem_cons_of_mem _ hq)]

theorem foldl_dictInsert_eq {α : Type} (f : Table → α) :
    ∀ (ts : List Table) (d : List (String × α)),
      (ts.map Table.name).Nodup →
      (∀ t ∈ ts, ∀ p ∈ d, p.1 ≠ t.name) →
      ts.foldl (fun acc t => dictInsert t.name (f t) acc) d =
        d ++ ts.map fun t => (t.name, f t) := by
  intro ts
  induction ts with
  | nil =>
    intro d _ _
    simp
  | cons t rest ih =>
    intro d hnod hfresh
    simp only [List.foldl_cons, List.map_cons]
    rw [dictInsert_fresh t.name (f t) d fun p hp => hfresh t (List.mem_cons_self _ _) p hp]
    rw [List.map_cons, List.nodup_cons] at hnod
    rw [ih (d ++ [(t.name, f t)]) hnod.2 ?_]
    · simp
    · intro t₀ ht₀ p hp
      rcases List.mem_append.mp hp with h | h
      · exact hfresh t₀ (List.mem_cons_of_mem _ ht₀) p h
      · have hp1 : p = (t.name, f t) := by simpa using h
        rw [hp1]
        intro hcontra
        have hname : t.name = t₀.name := hcontra
        refine hnod.1 ?_
        rw [hname]
        exact List.mem_map_of_mem Table.name ht₀

theorem dictFind_map {α : Type} (f : Table → α) :
    ∀ ts : List Table, (ts.map Table.name).Nodup → ∀ t ∈ ts,
      dictFind (ts.map fun t₀ => (t₀.name, f t₀)) t.name = some (f t) := by
  intro ts
  induction ts with
  | nil =>
    intro _ t ht
    cases ht
  | cons t₀ rest ih =>
    intro hnod t ht
    rw [List.map_cons, List.nodup_cons] at hnod
    simp only [List.map_cons, dictFind]
    by_cases h : t₀.name = t.name
    · rw [if_pos h]
      rcases List.mem_cons.mp ht with h1 | h1
      · rw [h1]
      · exfalso
        exact hnod.1 (h ▸ List.mem_map_of_mem Table.name h1)
    · rw [if_neg h]
      rcases List.mem_cons.mp ht with h1 | h1
      · exact absurd (congrArg Table.name h1.symm) h
      · exact ih hnod.2 t h1

theorem tablePrimaryKeys_eq (ts : List Table) (hnod : (ts.map Table.name).Nodup) :
    tablePrimaryKeys ts = ts.map fun t => (t.name, find_primary_key t) := by
  rw [tablePrimaryKeys, foldl_dictInsert_eq find_primary_key ts [] hnod (by simp)]
  simp

theorem infer_tables_eq (ts : List Table) (hnod : (ts.map Table.name).Nodup) :
    infer_tables ts = ts.map fun t => (t.name, mkRecord (tablePrimaryKeys ts) t) := by
  rw [infer_tables, foldl_dictInsert_eq (mkRecord (tablePrimaryKeys ts)) ts [] hnod (by simp)]
  simp

/-! Section: Helper lemmas: the inner candidate scan as a first-match search -/

theorem matchColumn_eq_find (tname cname : String) :
    ∀ ts : List Table,
      matchColumn tname cname (ts.map fun r => (r.name, find_primary_key r)) =
        (ts.find? (candidate_match tname cname)).map (fkOf cname) := by
  intro ts
  induction ts with
  | nil => rfl
  | cons r rest ih =>
    simp only [List.map_cons, matchColumn]
    by_cases h1 : r.name = tname
    · rw [if_pos h1, ih, List.find?_cons_of_neg]
      simp [candidate_match, h1]
    · rw [if_neg h1]
      cases hpk : find_primary_key r with
      | none =>
        dsimp only
        rw [ih, List.find?_cons_of_neg]
        simp [candidate_match, h1, hpk]
      | some pk =>
        dsimp only
        by_cases h2 : pk = ""
        · rw [if_neg (by simp [h2]), ih, List.find?_cons_of_neg]
          simp [candidate_match, h1, hpk, h2]
        · by_cases h3 : is_foreign_key_match cname pk r.name = true
          · rw [if_pos ⟨h2, h3⟩,
              List.find?_cons_of_pos _ (by simp [candidate_match, h1, hpk, h2, h3])]
            have hmap : Option.map (fkOf cname) (some r) = some (fkOf cname r) := rfl
            rw [hmap, fkOf, hpk]
          · rw [if_neg (by simp [h3]), ih, List.find?_cons_of_neg]
            simp [candidate_match, h1, hpk, h2, h3]

theorem tableForeignKeys_eq_filterMap (pks : List (String × Option String)) (tname : String) :
    ∀ cols : List Column,
      tableForeignKeys pks tname cols =
        cols.filterMap fun c =>
          if c.primary_key then none else matchColumn tname c.name pks := by
  intro cols
  induction cols with
  | nil => rfl
  | cons c rest ih =>
    simp only [tableForeignKeys, List.filterMap_cons]
    by_cases h : c.primary_key
    · simp only [h, if_true, ih]
    · simp only [h, if_false]
      cases hm : matchColumn tname c.name pks <;> simp [hm, ih]

/-- The record produced for a table, in closed form: under unique table
names, the output for table `t` pairs `t`'s own primary key with, per
column in declared order, the candidate accepted by a first-match scan of
the table list. -/
theorem infer_record (ts : List Table) (hnod : (ts.map Table.name).Nodup)
    (t : Table) (ht : t ∈ ts) :
    dictFind (infer_tables ts) t.name =
      some ⟨find_primary_key t,
        t.columns.filterMap fun c =>
          if c.primary_key then none
          else (ts.find? (candidate_match t.name c.name)).map (fkOf c.name)⟩ := by
  rw [infer_tables_eq ts hnod, dictFind_map (mkRecord (tablePrimaryKeys ts)) ts hnod t ht]
  rw [mkRecord, tablePrimaryKeys_eq ts hnod, dictFind_map find_primary_key ts hnod t ht]
  simp only [Option.getD_some]
  rw [tableForeignKeys_eq_filterMap]
  refine congrArg some ?_
  rw [Relationship.mk.injEq]
  refine ⟨rfl, ?_⟩
  congr 1
  funext c
  by_cases h : c.primary_key
  · simp [h]
  · simp only [h, if_false]
    rw [matchColumn_eq_find]

theorem findPrimaryKeyCols_none :
    ∀ cols : List Column, (∀ c ∈ cols, c.primary_key = false) →
      findPrimaryKeyCols cols = none := by
  intro cols
  induction cols with
  | nil =>
    intro _
    rfl
  | cons c rest ih =>
    intro h
    have hc := h c (List.mem_cons_self _ _)
    simp only [findPrimaryKeyCols, hc, if_false]
    exact ih fun c₀ hc₀ => h c₀ (List.mem_cons_of_mem _ hc₀)

/-! Section: Helper lemmas: every accepted match scores in one of the top three tiers -/

theorem conf_of_match (c pk tn : String) (h : is_foreign_key_match c pk tn = true) :
    calculate_confidence c pk tn = 1.0 ∨ calculate_confidence c pk tn = 0.95 ∨
      calculate_confidence c pk tn = 0.9 := by
  simp only [is_foreign_key_match] at h
  simp only [calculate_confidence]
  by_cases hA : strToLower c = strToLower pk
  · rw [if_pos hA]
    exact Or.inl rfl
  · rw [if_neg hA, if_neg hA] at h
    rw [if_neg hA]
    by_cases hB : extract_base_name (strToLower c) = extract_base_name (strToLower pk) ∧
        extract_base_name (strToLower c) ≠ ""
    · rw [if_pos hB]
      exact Or.inr (Or.inl rfl)
    · rw [if_neg hB]
      by_cases hC : extract_base_name (strToLower c) ≠ "" ∧
          memStr (extract_base_name (strToLower c))
            (get_table_name_variants (strToLower tn)) = true
      · rw [if_pos hC]
        exact Or.inr (Or.inr rfl)
      · exfalso
        have hB₀ : ¬(extract_base_name (strToLower c) ≠ "" ∧
            extract_base_name (strToLower pk) ≠ "" ∧
            extract_base_name (strToLower c) = extract_base_name (strToLower pk)) := by
          rintro ⟨hcb, -, heq⟩
          exact hB ⟨heq, hcb⟩
        rw [if_neg hB₀, if_neg hC] at h
        cases h

theorem matchColumn_conf (tname cname : String) :
    ∀ (pks : List (String × Option String)) (fk : ForeignKey),
      matchColumn tname cname pks = some fk →
      fk.confidence = 1.0 ∨ fk.confidence = 0.95 ∨ fk.confidence = 0.9 := by
  intro pks
  induction pks with
  | nil =>
    intro fk h
    cases h
  | cons e rest ih =>
    intro fk h
    obtain ⟨rn, rpk⟩ := e
    simp only [matchColumn] at h
    by_cases h1 : rn = tname
    · rw [if_pos h1] at h
      exact ih fk h
    · rw [if_neg h1] at h
      cases rpk with
      | none => exact ih fk h
      | some pk =>
        dsimp only at h
        by_cases h2 : pk ≠ "" ∧ is_foreign_key_match cname pk rn = true
        · rw [if_pos h2] at h
          cases h
          exact conf_of_match cname pk rn h2.2
        · rw [if_neg h2] at h
          exact ih fk h

theorem tableForeignKeys_conf (pks : List (String × Option String)) (tname : String) :
    ∀ (cols : List Column) (fk : ForeignKey), fk ∈ tableForeignKeys pks tname cols →
      fk.confidence = 1.0 ∨ fk.confidence = 0.95 ∨ fk.confidence = 0.9 := by
  intro cols
  induction cols with
  | nil =>
    intro fk h
    cases h
  | cons c rest ih =>
    intro fk h
    simp only [tableForeignKeys] at h
    by_cases h1 : c.primary_key
    · rw [if_pos h1] at h
      exact ih fk h
    · rw [if_neg h1] at h
      cases hm : matchColumn tname c.name pks with
      | none =>
        rw [hm] at h
        exact ih fk h
      | some fk₀ =>
        rw [hm] at h
        rcases List.mem_cons.mp h with h2 | h2
        · rw [h2]
          exact matchColumn_conf tname c.name pks fk₀ hm
        · exact ih fk h2

theorem foldl_dictInsert_values {α : Type} (P : α → Prop) (f : Table → α) :
    ∀ (ts : List Table) (d : List (String × α)),
      (∀ t ∈ ts, P (f t)) → (∀ p ∈ d, P p.2) →
      ∀ p ∈ ts.foldl (fun acc t => dictInsert t.name (f t) acc) d, P p.2 := by
  intro ts
  induction ts with
  | nil =>
    intro d _ hd p hp
    exact hd p hp
  | cons t rest ih =>
    intro d hts hd p hp
    refine ih (dictInsert t.name (f t) d)
      (fun u hu => hts u (List.mem_cons_of_mem _ hu)) ?_ p hp
    intro q hq
    rcases mem_dictInsert t.name (f t) d q hq with h | h
    · rw [h]
      exact hts t (List.mem_cons_self _ _)
    · exact hd q h

/-! Section: The claims -/

/-- Claim C1, amended: under unique table names, for every table `t` and
every column of `t` not flagged `primary_key`, the candidate reference
tables are examined in the order of `schema.tables` (`List.find?`), the
first candidate satisfying `candidate_match` — distinct from `t`, with a
non-null AND non-empty primary-key name, and passing the match predicate —
is accepted and the search stops; columns flagged `primary_key` contribute
nothing, and each column contributes at most one foreign-key candidate
(the record is a `filterMap` of at most one candidate per column).  The
original claim's candidate set ("non-null primary key") is too large: a
primary key named `""` is skipped by the code (see the counterexample). -/
theorem claim_C1 (tables : List Table) (hnod : (tables.map Table.name).Nodup)
    (t : Table) (ht : t ∈ tables) :
    dictFind (infer_tables tables) t.name =
      some ⟨find_primary_key t,
        t.columns.filterMap fun c =>
          if c.primary_key then none
          else (tables.find? (candidate_match t.name c.name)).map (fkOf c.name)⟩ :=
  infer_record tables hnod t ht

/-- Witness for C1 at the Scenario A schema. -/
theorem claim_C1_witness :
    dictFind (infer_tables tablesA) ordersA.name =
      some ⟨find_primary_key ordersA,
        ordersA.columns.filterMap fun c =>
          if c.primary_key then none
          else (tablesA.find? (candidate_match ordersA.name c.name)).map (fkOf c.name)⟩ :=
  claim_C1 tablesA (by decide) ordersA (by decide)

/-- Counterexample to C1 as stated: in `tablesE`, table `usersE` has the
non-null primary key `some ""`, is distinct from `orders`, and the match
predicate accepts column `user_id` against it — so by the claim a
foreign-key candidate should be recorded for `user_id` — yet the code
(Python truthiness of `ref_pk`) skips the empty-named key and the record
for `orders` contains no foreign key at all. -/
theorem claim_C1_counterexample :
    usersE ∈ tablesE ∧
      usersE.name ≠ "orders" ∧
      find_primary_key usersE = some "" ∧
      is_foreign_key_match "user_id" "" usersE.name = true ∧
      claim_candidate "orders" "user_id" usersE = true ∧
      dictFind (infer_tables tablesE) "orders" = some ⟨some "order_id", []⟩ :=
  ⟨List.mem_cons_self _ _, by decide, rfl, rfl, rfl, rfl⟩

/-- Claim C2: in Scenario C (`users(id PK, name)`, `orders(order_id PK,
user_id, total)`) the record for `orders` holds exactly one foreign key,
`user_id` referencing `users.id` with confidence 0.9; tier b is skipped
because `extract_base_name("id")` is empty, and tier c fires because
`"user"` is a table-name variant of `"users"`. -/
theorem claim_C2 :
    dictFind (infer_tables tablesC) "orders" =
        some ⟨some "order_id", [⟨"user_id", "users.id", 0.9⟩]⟩ ∧
      extract_base_name "id" = "" ∧
      extract_base_name "user_id" = "user" ∧
      memStr "user" (get_table_name_variants "users") = true ∧
      calculate_confidence "user_id" "id" "users" = 0.9 :=
  ⟨rfl, rfl, rfl, rfl, rfl⟩

/-- Claim C3, amended: a schema dictionary with no `tables` field does NOT
raise; `schema.get('tables', [])` substitutes the empty table list and the
operation returns the empty output mapping.  (No `InvalidSchemaError`
exists anywhere in the code base.) -/
theorem claim_C3_amended (schema : SchemaDict) (h : schema.tables? = none) :
    infer_relationships schema = [] := by
  rw [infer_relationships, h]
  rfl

/-- Witness for the amended C3. -/
theorem claim_C3_witness : infer_relationships ⟨none⟩ = [] :=
  claim_C3_amended ⟨none⟩ rfl

/-- Counterexample to C3 as stated: on the schema with a missing `tables`
field the operation does not fail — it returns an output mapping (the
empty one), the same output produced for an explicitly empty table list. -/
theorem claim_C3_counterexample :
    infer_relationships ⟨none⟩ = [] ∧
      infer_relationships ⟨none⟩ = infer_relationships ⟨some []⟩ :=
  ⟨rfl, rfl⟩

/-- Claim C4, amended: a table with no column flagged `primary_key` is not
an error: its record carries `primary_key = none` (and its foreign keys
are computed by the ordinary per-column matching — they need NOT be empty,
see the counterexample); the empty schema yields the empty mapping. -/
theorem claim_C4_amended :
    (∀ tables : List Table, (tables.map Table.name).Nodup →
      ∀ t ∈ tables, (∀ c ∈ t.columns, c.primary_key = false) →
        ∃ fks, dictFind (infer_tables tables) t.name = some ⟨none, fks⟩) ∧
      infer_tables [] = [] := by
  constructor
  · intro tables hnod t ht hnopk
    have hpk : find_primary_key t = none := findPrimaryKeyCols_none t.columns hnopk
    exact ⟨_, by rw [infer_record tables hnod t ht, hpk]⟩
  · rfl

/-- Witness for the amended C4 at the `tablesN` schema. -/
theorem claim_C4_witness :
    ∃ fks, dictFind (infer_tables tablesN) logsN.name = some ⟨none, fks⟩ :=
  claim_C4_amended.1 tablesN (by decide) logsN (by decide) (by decide)

/-- Counterexample to C4 as stated: in `tablesN`, table `logs` has no
primary-key column, yet its record's `foreign_keys` list is NOT empty —
its column `user_id` matches `users.id` and is recorded with confidence
0.9.  (The claim's "empty foreign_keys list" only holds in single-table
schemas such as Scenario D.) -/
theorem claim_C4_counterexample :
    (∀ c ∈ logsN.columns, c.primary_key = false) ∧
      dictFind (infer_tables tablesN) "logs" =
        some ⟨none, [⟨"user_id", "users.id", 0.9⟩]⟩ ∧
      ([⟨"user_id", "users.id", 0.9⟩] : List ForeignKey) ≠ [] :=
  ⟨by decide, rfl, List.cons_ne_nil _ _⟩

/-- Claim C5, amended: `extract_base_name` performs NO lowercasing of its
own (its callers pass it already-lowercased strings); on any string it
strips a trailing `"_id"`, else a trailing `"id"`, else returns the input
unchanged, the `"_id"` test coming first — so `"uuid"` yields `"uu"`. -/
theorem claim_C5_amended :
    (∀ name : String,
      extract_base_name name =
        if strEndsWith name "_id" then strDropRight name 3
        else if strEndsWith name "id" then strDropRight name 2
        else name) ∧
      extract_base_name "uuid" = "uu" :=
  ⟨fun _ => rfl, rfl⟩

/-- Counterexample to C5 as stated: the claim's lowercase-first reading
maps `"ID"` to `""`, but the code's `_extract_base_name` is case-sensitive
and returns `"ID"` unchanged. -/
theorem claim_C5_counterexample :
    extract_base_name "ID" = "ID" ∧ extract_base_name_claim "ID" = "" ∧
      extract_base_name "ID" ≠ extract_base_name_claim "ID" :=
  ⟨rfl, rfl, by decide⟩

/-- Claim C6, amended: `table_name_variants` performs NO lowercasing of its
own (its caller passes it the already-lowercased table name); its result is
duplicate-free and holds exactly: the input name; if the input contains an
underscore, every `_`-separated part and the parts joined with no
separator; if the input ends in `s` with length > 1, the input minus its
trailing `s`; and if the input does not end in `s`, the input plus `s`. -/
theorem claim_C6_amended (table_name : String) :
    (get_table_name_variants table_name).Nodup ∧
      ∀ s : String,
        s ∈ get_table_name_variants table_name ↔
          (s = table_name ∨
            (strHasChar table_name '_' = true ∧
              (s ∈ strSplitChar table_name '_' ∨ s = strJoin (strSplitChar table_name '_'))) ∨
            (strEndsWith table_name "s" = true ∧ 1 < table_name.length ∧
              s = strDropRight table_name 1) ∨
            (strEndsWith table_name "s" = false ∧ s = table_name ++ "s")) := by
  constructor
  · simp only [get_table_name_variants]
    exact dedupStr_nodup _
  · intro s
    simp only [get_table_name_variants]
    rw [mem_dedupStr]
    by_cases h1 : strHasChar table_name '_' = true <;>
      by_cases h2 : strEndsWith table_name "s" = true <;>
        by_cases h3 : 1 < table_name.length <;>
          simp [h1, h2, h3, List.mem_append, or_assoc]

/-- Counterexample to C6 as stated: on input `"Users"` the claim's
lowercase-first construction contains `"users"`, but the code's variant
list is case-preserving (`["Users", "User"]`) and does not. -/
theorem claim_C6_counterexample :
    "users" ∈ table_name_variants_claim "Users" ∧
      "users" ∉ get_table_name_variants "Users" ∧
      get_table_name_variants "Users" = ["Users", "User"] := by
  refine ⟨?_, ?_, rfl⟩ <;> decide

/-- Claim C7: in Scenario A (`customers(customer_id PK, name)`,
`orders(order_id PK, customer_id, total)`) the record for `orders` holds
exactly the one foreign key `customer_id` referencing
`customers.customer_id` with confidence 1.0 (tier a, exact
case-insensitive equality). -/
theorem claim_C7 :
    dictFind (infer_tables tablesA) "orders" =
        some ⟨some "order_id", [⟨"customer_id", "customers.customer_id", 1.0⟩]⟩ ∧
      calculate_confidence "customer_id" "customer_id" "customers" = 1.0 :=
  ⟨rfl, rfl⟩

/-- Claim C8: under the data model's well-formedness (unique table names;
unique column names within a table), every foreign key in a table's record
references some OTHER table of the schema via that table's primary key
(never the owning table itself), and its column is never one of the owning
table's primary-key-flagged columns. -/
theorem claim_C8 (tables : List Table) (hnod : (tables.map Table.name).Nodup)
    (hcols : ∀ t ∈ tables, (t.columns.map Column.name).Nodup)
    (t : Table) (ht : t ∈ tables) (rec : Relationship)
    (hrec : dictFind (infer_tables tables) t.name = some rec)
    (fk : ForeignKey) (hfk : fk ∈ rec.foreign_keys) :
    (∃ r ∈ tables, r.name ≠ t.name ∧ ∃ pk, find_primary_key r = some pk ∧
        fk.references = r.name ++ "." ++ pk) ∧
      ∀ p ∈ t.columns, p.primary_key = true → fk.column ≠ p.name := by
  rw [infer_record tables hnod t ht] at hrec
  injection hrec with hrec
  subst hrec
  rcases List.mem_filterMap.mp hfk with ⟨c, hc, hcfk⟩
  by_cases hpk : c.primary_key
  · rw [if_pos hpk] at hcfk
    cases hcfk
  · rw [if_neg hpk] at hcfk
    cases hfind : tables.find? (candidate_match t.name c.name) with
    | none =>
      rw [hfind] at hcfk
      cases hcfk
    | some r =>
      rw [hfind] at hcfk
      have hrmem : r ∈ tables := List.mem_of_find?_eq_some hfind
      have hcand : candidate_match t.name c.name r = true := List.find?_some hfind
      rw [candidate_match] at hcand
      by_cases hr : r.name = t.name
      · rw [if_pos hr] at hcand
        cases hcand
      · rw [if_neg hr] at hcand
        cases hpkr : find_primary_key r with
        | none =>
          rw [hpkr] at hcand
          cases hcand
        | some pk =>
          rw [hpkr] at hcand
          dsimp only at hcand
          by_cases hpk0 : pk = ""
          · rw [if_pos hpk0] at hcand
            cases hcand
          · injection hcfk with hcfk
            have hfkval : fk = ⟨c.name, r.name ++ "." ++ pk,
                calculate_confidence c.name pk r.name⟩ := by
              rw [← hcfk, fkOf, hpkr]
            constructor
            · exact ⟨r, hrmem, hr, pk, hpkr, by rw [hfkval]⟩
            · intro p hp hppk heq
              rw [hfkval] at heq
              have hcp : c = p :=
                List.inj_on_of_nodup_map (hcols t ht) hc hp heq
              rw [hcp, hppk] at hpk
              exact hpk rfl

/-- Witness for C8 at the Scenario A schema and its single foreign key. -/
theorem claim_C8_witness :
    (∃ r ∈ tablesA, r.name ≠ ordersA.name ∧ ∃ pk, find_primary_key r = some pk ∧
        (⟨"customer_id", "customers.customer_id", 1.0⟩ : ForeignKey).references =
          r.name ++ "." ++ pk) ∧
      ∀ p ∈ ordersA.columns, p.primary_key = true →
        (⟨"customer_id", "customers.customer_id", 1.0⟩ : ForeignKey).column ≠ p.name :=
  claim_C8 tablesA (by decide) (by decide) ordersA (by decide)
    ⟨some "order_id", [⟨"customer_id", "customers.customer_id", 1.0⟩]⟩ rfl
    ⟨"customer_id", "customers.customer_id", 1.0⟩ (List.mem_singleton_self _)

/-- Claim C9: every foreign-key candidate ever emitted carries confidence
exactly 1.0, 0.95 or 0.9 — the 0.7 substring tier and the 0.5 fallback of
the scorer are unreachable because the match predicate gates acceptance on
the same three conditions the scorer checks first, in the same order. -/
theorem claim_C9 (schema : SchemaDict) :
    ∀ p ∈ infer_relationships schema, ∀ fk ∈ p.2.foreign_keys,
      fk.confidence = 1.0 ∨ fk.confidence = 0.95 ∨ fk.confidence = 0.9 := by
  intro p hp fk hfk
  simp only [infer_relationships, infer_tables] at hp
  refine foldl_dictInsert_values
    (fun rec => ∀ fk₀ ∈ rec.foreign_keys,
      fk₀.confidence = 1.0 ∨ fk₀.confidence = 0.95 ∨ fk₀.confidence = 0.9)
    (mkRecord (tablePrimaryKeys (schema.tables?.getD [])))
    (schema.tables?.getD []) [] ?_ ?_ p hp fk hfk
  · intro t _ fk₀ hfk₀
    exact tableForeignKeys_conf (tablePrimaryKeys (schema.tables?.getD []))
      t.name t.columns fk₀ hfk₀
  · intro q hq
    cases hq

/-- Witness for C9 at the Scenario A schema and its single foreign key. -/
theorem claim_C9_witness :
    (⟨"customer_id", "customers.customer_id", 1.0⟩ : ForeignKey).confidence = 1.0 ∨
      (⟨"customer_id", "customers.customer_id", 1.0⟩ : ForeignKey).confidence = 0.95 ∨
      (⟨"customer_id", "customers.customer_id", 1.0⟩ : ForeignKey).confidence = 0.9 :=
  claim_C9 ⟨some tablesA⟩
    ("orders", ⟨some "order_id", [⟨"customer_id", "customers.customer_id", 1.0⟩]⟩)
    (by
      have h : infer_relationships ⟨some tablesA⟩ =
          [("customers", ⟨some "customer_id", []⟩),
           ("orders", ⟨some "order_id", [⟨"customer_id", "customers.customer_id", 1.0⟩]⟩)] :=
        rfl
      rw [h]
      exact List.mem_cons_of_mem _ (List.mem_singleton_self _))
    ⟨"customer_id", "customers.customer_id", 1.0⟩ (List.mem_singleton_self _)

/-- Claim C10: the inference is a pure function of the schema value — two
invocations on the same input produce identical output mappings; in this
embedding there is no hidden state for the result to depend on. -/
theorem claim_C10 (schema : SchemaDict) :
    infer_relationships schema = infer_relationships schema := rfl

end SchemaGraph
